import Mathlib

/-
Verification of the streamed turn-assembly and history-reconciliation engine
of the codex-go agent (src/internal/agent/openai.go).

The Go code is shallowly embedded: the pure history projections become Lean
functions on message lists, the two streaming loops (SendMessage and
SendFunctionResult) become folds over the list of received deltas, and the
side effects visible to a caller (handler invocations and pending-call
registration) are recorded as an explicit action trace.

Go map iteration order is unspecified.  Wherever the code ranges over a map
(the tool-call emission loop of SendMessage), the model takes the iteration
order from an oracle (the ords field of the state); the ok flag records that
every order supplied so far was a permutation of the map contents at that
point.  States reachable with ok = true are exactly the executions the Go
semantics allows.
-/

namespace CodexAgent

/-- openai.FunctionCall: accumulated name and raw JSON argument text. -/
structure FunctionCall where
  name : String
  arguments : String
deriving DecidableEq

/-- agent.ToolCall as stored on assistant history entries. -/
structure ToolCall where
  id : String
  type : String
  function : FunctionCall
deriving DecidableEq

/-- agent.Message: one entry of the conversation history (the Message Log). -/
structure Message where
  role : String
  content : String
  toolCalls : List ToolCall := []
  toolCallId : String := ""
  name : String := ""
deriving DecidableEq

/-- openai.ChatCompletionMessage: one entry of the outbound API sequence. -/
structure ChatCompletionMessage where
  role : String
  content : String
  toolCalls : List ToolCall := []
  toolCallId : String := ""
deriving DecidableEq

/-- One tool-call fragment inside a streamed delta (openai.ToolCall chunk). -/
structure ToolCallChunk where
  id : String
  functionName : String
  functionArguments : String
deriving DecidableEq

/-- choice 0 of one streamed response chunk: role/content/tool-call deltas
plus the finish reason ("" while the turn is still running). -/
structure Delta where
  role : String := ""
  content : String := ""
  toolCalls : List ToolCallChunk := []
  finishReason : String := ""
deriving DecidableEq

/-- The serialized ResponseItem values handed to the caller's handler. -/
inductive ResponseItem where
  | message (role : String) (content : String)
  | functionCall (name : String) (arguments : String) (id : String)
  | followupComplete
deriving DecidableEq

/-- Externally visible actions of the agent, in program order: handler
invocations and pendingToolCalls registrations. -/
inductive AgentAction where
  | emit (item : ResponseItem)
  | register (id : String)
deriving DecidableEq

/- ---------------------------------------------------------------------
   History projections (SendMessage lines 249-280, SendFunctionResult
   lines 603-658 of openai.go)
   --------------------------------------------------------------------- -/

/-- The per-message conversion SendMessage applies to the whole history:
assistant entries carrying tool calls get their content forced empty, tool
entries carry their toolCallId; nothing is ever skipped. -/
def smProjectMsg (m : Message) : ChatCompletionMessage :=
  let apiMsg : ChatCompletionMessage :=
    { role := m.role, content := m.content, toolCalls := [], toolCallId := "" }
  let apiMsg :=
    if m.role == "assistant" && !m.toolCalls.isEmpty then
      { apiMsg with toolCalls := m.toolCalls, content := "" }
    else apiMsg
  if m.role == "tool" then { apiMsg with toolCallId := m.toolCallId } else apiMsg

/-- The history conversion step of SendMessage: a plain map, no filtering. -/
def sendMessageProject (ms : List Message) : List ChatCompletionMessage :=
  ms.map smProjectMsg

/-- Go map insert used for toolCallIDsExpected: set semantics. -/
def expInsert (e : List String) (id : String) : List String :=
  if id ∈ e then e else e ++ [id]

/-- The filtering loop of SendFunctionResult, threading the set of tool-call
ids whose results are still expected.  An assistant text entry is skipped
while the set is non-empty; a tool entry removes its id from the set. -/
def sendFunctionResultFilterGo : List String → List Message → List ChatCompletionMessage
  | _, [] => []
  | exp, m :: rest =>
    if m.role == "assistant" then
      if !m.toolCalls.isEmpty then
        { role := m.role, content := "", toolCalls := m.toolCalls, toolCallId := "" }
          :: sendFunctionResultFilterGo
              (m.toolCalls.foldl (fun e tc => expInsert e tc.id) exp) rest
      else if !exp.isEmpty then
        sendFunctionResultFilterGo exp rest
      else
        { role := m.role, content := m.content, toolCalls := [], toolCallId := "" }
          :: sendFunctionResultFilterGo exp rest
    else if m.role == "tool" then
      { role := m.role, content := m.content, toolCalls := [], toolCallId := m.toolCallId }
        :: sendFunctionResultFilterGo (exp.filter (fun x => x != m.toolCallId)) rest
    else
      { role := m.role, content := m.content, toolCalls := [], toolCallId := "" }
        :: sendFunctionResultFilterGo exp rest

/-- The filtering step of SendFunctionResult, started with no expected ids. -/
def sendFunctionResultFilter (ms : List Message) : List ChatCompletionMessage :=
  sendFunctionResultFilterGo [] ms

/- ---------------------------------------------------------------------
   The projection-invariant property, stated positionally from the spec
   --------------------------------------------------------------------- -/

/-- An outbound assistant entry carrying only text. -/
def isAsstText (m : ChatCompletionMessage) : Bool :=
  m.role == "assistant" && m.toolCalls.isEmpty

/-- An outbound assistant entry issuing tool calls. -/
def isAsstCalls (m : ChatCompletionMessage) : Bool :=
  m.role == "assistant" && !m.toolCalls.isEmpty

/-- Does the segment contain a tool-result entry for the given call id? -/
def segHasResult (seg : List ChatCompletionMessage) (id : String) : Bool :=
  seg.any fun m => m.role == "tool" && m.toolCallId == id

/-- Positions i < j witness a violation: a tool-call-issuing assistant entry
at i, an assistant text entry at j, and some call id of entry i without a
matching tool-result entry strictly between them. -/
def violationAt (os : List ChatCompletionMessage) (i j : Nat) : Bool :=
  decide (i < j) &&
  ((os[i]?).elim false isAsstCalls) &&
  ((os[j]?).elim false isAsstText) &&
  ((os[i]?).elim false fun a =>
    a.toolCalls.any fun tc => !segHasResult ((os.drop (i + 1)).take (j - (i + 1))) tc.id)

/-- The outbound sequence contains an assistant text entry positioned after a
tool-call-issuing assistant entry and before all of its results are present. -/
def projViolation (os : List ChatCompletionMessage) : Bool :=
  (List.range os.length).any fun i =>
    (List.range os.length).any fun j => violationAt os i j

/- ---------------------------------------------------------------------
   SendMessage pre-stream phase: cancellation reconciliation
   (openai.go lines 212-243)
   --------------------------------------------------------------------- -/

/-- json.Marshal of the aborted-result content map (single key, so the
marshalled text is fixed). -/
def cancelledContent : String := "\x7b\"error\":\"execution cancelled by user\"\x7d"

/-- The synthetic tool-result entry created for a drained pending call id. -/
def syntheticAborted (callId : String) : Message :=
  { role := "tool", content := cancelledContent, toolCalls := [],
    toolCallId := callId, name := "" }

/-- The abortedToolResults slice built by ranging over pendingToolCalls.
The pending ids are given as a list in the (arbitrary) map iteration order. -/
def buildAborted (pending : List String) : List Message :=
  pending.foldl (fun acc id => acc ++ [syntheticAborted id]) []

/-- Modelled from the spec: ConversationHistory.AddMessages (defined outside
src/) appends entries to the ordered, append-only Message Log. -/
def addMessages (h : List Message) (ms : List Message) : List Message := h ++ ms

/-- The reconciliation phase of SendMessage: drain pendingToolCalls into
synthetic tool results, append them, then append the new user messages.
Returns the new Message Log and the (now empty) pending set. -/
def sendMessagePre (pending : List String) (hist : List Message) (msgs : List Message) :
    List Message × List String :=
  let aborted := buildAborted pending
  let h1 := if aborted.isEmpty then hist else addMessages hist aborted
  let h2 := if msgs.isEmpty then h1 else addMessages h1 msgs
  (h2, [])

/- ---------------------------------------------------------------------
   SendMessage streaming loop (openai.go lines 308-478)
   --------------------------------------------------------------------- -/

/-- State of the SendMessage receive loop.  acc is accumulatingToolCalls as
an association list in first-seen key order (the Go map holds the same
entries with no order).  ords is the oracle supplying the map iteration
order used at each tool_calls finish; ok records that every supplied order
was a permutation of the map contents. -/
structure SMState where
  acc : List (String × FunctionCall)
  currentContent : String
  currentRole : String
  endedToolCall : Bool
  processing : Bool
  trace : List AgentAction
  ords : List (List (String × FunctionCall))
  ok : Bool
deriving DecidableEq

/-- Accumulate one tool-call chunk into the per-id buffers: a chunk with an
empty id is skipped; a new id is appended with the chunk's function name;
non-empty argument text is appended to the id's buffer. -/
def accUpdate (acc : List (String × FunctionCall)) (ch : ToolCallChunk) :
    List (String × FunctionCall) :=
  if ch.id == "" then acc
  else
    let acc1 :=
      if acc.any (fun p => p.1 == ch.id) then acc
      else acc ++ [(ch.id, { name := ch.functionName, arguments := "" })]
    if ch.functionArguments != "" then
      acc1.map fun p =>
        if p.1 == ch.id then
          (p.1, { p.2 with arguments := p.2.arguments ++ ch.functionArguments })
        else p
    else acc1

/-- The actions of the tool_calls emission loop: for each map entry in the
given iteration order, register the id as pending, then hand the
function_call item to the handler. -/
def emitCalls (ord : List (String × FunctionCall)) : List AgentAction :=
  ord.foldr
    (fun p acts =>
      AgentAction.register p.1
        :: AgentAction.emit (ResponseItem.functionCall p.2.name p.2.arguments p.1)
        :: acts)
    []

/-- The accumulator contents after folding this delta's chunks (the map the
emission loop would iterate if this delta carries the finish marker). -/
def smStepAcc (st : SMState) (d : Delta) : List (String × FunctionCall) :=
  if (st.processing || !d.toolCalls.isEmpty) && !d.toolCalls.isEmpty then
    d.toolCalls.foldl accUpdate st.acc
  else st.acc

/-- One iteration of the SendMessage receive loop on one delta. -/
def smStep (st : SMState) (d : Delta) : SMState :=
  let role := if d.role == "" then st.currentRole else d.role
  let processing := st.processing || !d.toolCalls.isEmpty
  let contentNew :=
    if d.content != "" && !processing then st.currentContent ++ d.content
    else st.currentContent
  let trace1 :=
    if d.content != "" && !processing then
      st.trace ++ [AgentAction.emit (ResponseItem.message role (st.currentContent ++ d.content))]
    else st.trace
  let acc := smStepAcc st d
  let ended1 := st.endedToolCall || (processing && !d.toolCalls.isEmpty)
  if d.finishReason == "tool_calls" then
    let ord := st.ords.headD acc
    { acc := acc, currentContent := contentNew, currentRole := role,
      endedToolCall := true, processing := processing,
      trace := trace1 ++ emitCalls ord,
      ords := st.ords.tail,
      ok := st.ok && decide (ord.Perm acc) }
  else
    { acc := acc, currentContent := contentNew, currentRole := role,
      endedToolCall := ended1, processing := processing,
      trace := trace1, ords := st.ords, ok := st.ok }

/-- Run the receive loop from a given state over a list of deltas. -/
def smRunFrom (st : SMState) (deltas : List Delta) : SMState :=
  deltas.foldl smStep st

/-- Initial loop state (accumulator empty, mode undetermined). -/
def smInit (ords : List (List (String × FunctionCall))) : SMState :=
  { acc := [], currentContent := "", currentRole := "assistant",
    endedToolCall := false, processing := false, trace := [],
    ords := ords, ok := true }

/-- Run the whole receive loop of one SendMessage turn. -/
def smRun (deltas : List Delta) (ords : List (List (String × FunctionCall))) : SMState :=
  smRunFrom (smInit ords) deltas

/-- How the stream terminates after its deltas: clean EOF, or a receive
error (transport failure or context cancellation). -/
inductive StreamEnd where
  | eof
  | fail
deriving DecidableEq

/-- The post-loop history commit of SendMessage (lines 434-475): a tool-call
turn commits an assistant entry holding only the accumulated calls (empty
argument buffers default to "\x7b\x7d"); otherwise non-empty accumulated
text commits an assistant text entry.  Returns the new log and the
streamEndedWithToolCall flag.  The ToolCalls slice is built by ranging over
the map; its order is unspecified and first-seen order is used here (no
theorem below depends on this order). -/
def smFinish (hist : List Message) (st : SMState) : List Message × Bool :=
  if st.endedToolCall then
    let tcs := st.acc.map fun p =>
      ToolCall.mk p.1 "function"
        { name := p.2.name,
          arguments := if p.2.arguments == "" then "\x7b\x7d" else p.2.arguments }
    if !tcs.isEmpty then
      (hist ++ [{ role := "assistant", content := "", toolCalls := tcs }], true)
    else (hist, true)
  else if st.currentContent != "" then
    (hist ++ [{ role := st.currentRole, content := st.currentContent }], false)
  else (hist, false)

/-- A full SendMessage stream: process the received deltas, then either
return the receive error (committing nothing) or commit the finished turn.
Returns the new Message Log and the function result. -/
def sendMessageRun (hist : List Message) (deltas : List Delta) (e : StreamEnd)
    (ords : List (List (String × FunctionCall))) :
    List Message × Except String Bool :=
  let st := smRun deltas ords
  match e with
  | StreamEnd.fail => (hist, Except.error "error receiving from stream")
  | StreamEnd.eof =>
    let hb := smFinish hist st
    (hb.1, Except.ok hb.2)

/-- Did any delta deliver a terminal finish marker? -/
def hasTerminalMarker (deltas : List Delta) : Bool :=
  deltas.any fun d => d.finishReason == "stop" || d.finishReason == "tool_calls"

/- ---------------------------------------------------------------------
   SendFunctionResult follow-up streaming loop (openai.go lines 684-831)
   --------------------------------------------------------------------- -/

/-- State of the SendFunctionResult follow-up loop.  Unlike SendMessage it
keeps a single current function call (only toolCalls[0] of each delta is
read), appends nested assistant entries to the history inside the loop, and
never touches pendingToolCalls. -/
structure SFRState where
  currentContent : String
  currentRole : String
  curCall : Option FunctionCall
  curCallId : String
  history : List Message
  trace : List AgentAction
deriving DecidableEq

/-- Initial follow-up loop state over the given Message Log. -/
def sfrInit (hist : List Message) : SFRState :=
  { currentContent := "", currentRole := "assistant", curCall := none,
    curCallId := "", history := hist, trace := [] }

/-- One iteration of the follow-up receive loop on one delta. -/
def sfrStep (st : SFRState) (d : Delta) : SFRState :=
  let st :=
    if d.content != "" then
      { st with
        currentContent := st.currentContent ++ d.content,
        trace := st.trace ++
          [AgentAction.emit (ResponseItem.message st.currentRole (st.currentContent ++ d.content))] }
    else st
  let st :=
    match d.toolCalls.head? with
    | none => st
    | some ch =>
      match st.curCall with
      | none =>
        { st with curCall := some { name := ch.functionName, arguments := ch.functionArguments },
                  curCallId := ch.id }
      | some fc =>
        { st with curCall := some { fc with arguments := fc.arguments ++ ch.functionArguments } }
  if d.finishReason == "tool_calls" then
    match st.curCall with
    | some fc =>
      { st with
        history := st.history ++
          [{ role := "assistant", content := "",
             toolCalls := [ToolCall.mk st.curCallId "function" fc] }],
        trace := st.trace ++
          [AgentAction.emit (ResponseItem.functionCall fc.name fc.arguments st.curCallId)],
        curCall := none, curCallId := "" }
    | none => st
  else st

/-- The post-loop phase of SendFunctionResult: commit accumulated text, then
send the followup_complete item whenever currentFunctionCall is nil. -/
def sfrFinish (st : SFRState) : SFRState :=
  let st :=
    if st.currentContent != "" then
      { st with history := st.history ++
          [{ role := st.currentRole, content := st.currentContent }] }
    else st
  if st.curCall.isNone then
    { st with trace := st.trace ++ [AgentAction.emit ResponseItem.followupComplete] }
  else st

/-- A full follow-up stream reaching EOF: loop over the deltas, then finish. -/
def sfrRun (hist : List Message) (deltas : List Delta) : SFRState :=
  sfrFinish (deltas.foldl sfrStep (sfrInit hist))

/- ---------------------------------------------------------------------
   Trace observations
   --------------------------------------------------------------------- -/

/-- Is this action a TextDelta (message) handler invocation? -/
def isMsgEmit : AgentAction → Bool
  | AgentAction.emit (ResponseItem.message _ _) => true
  | _ => false

/-- The message events of a trace, in order. -/
def msgEvents (t : List AgentAction) : List AgentAction := t.filter isMsgEmit

/-- The call id of a function_call handler invocation, if any. -/
def fcId : AgentAction → Option String
  | AgentAction.emit (ResponseItem.functionCall _ _ id) => some id
  | _ => none

/-- The ids of the function_call events of a trace, in emission order. -/
def fcIds (t : List AgentAction) : List String := t.filterMap fcId

/-- Does every function_call emission in the trace come after a registration
of the same id?  regs holds the ids registered so far. -/
def fcRegistered : List String → List AgentAction → Bool
  | _, [] => true
  | regs, AgentAction.register id :: t => fcRegistered (id :: regs) t
  | regs, AgentAction.emit (ResponseItem.functionCall _ _ id) :: t =>
    regs.contains id && fcRegistered regs t
  | regs, _ :: t => fcRegistered regs t

/-- The concatenation f1 ++ ... ++ fn of a list of text fragments. -/
def concatStrings (l : List String) : String := l.foldl (fun a b => a ++ b) ""

/-- The TextDelta events a pure-text fragment stream produces: after each
fragment, one message event carrying the whole accumulated content. -/
def textEvents (role : String) (c : String) : List String → List AgentAction
  | [] => []
  | f :: rest =>
    AgentAction.emit (ResponseItem.message role (c ++ f)) :: textEvents role (c ++ f) rest

/-- The concatenation of all content fragments of a delta stream. -/
def textConcat (deltas : List Delta) : String :=
  deltas.foldl (fun s d => s ++ d.content) ""

/-- The role of the final assistant entry: the last non-empty role delta,
defaulting to assistant. -/
def textRole (deltas : List Delta) : String :=
  deltas.foldl (fun r d => if d.role == "" then r else d.role) "assistant"

/-- The expected-results bookkeeping of the filter, replayed over outbound
entries: a tool-call-issuing assistant entry inserts its ids, a tool entry
removes its id. -/
def chatExpStep (exp : List String) (m : ChatCompletionMessage) : List String :=
  if isAsstCalls m then m.toolCalls.foldl (fun e tc => expInsert e tc.id) exp
  else if m.role == "tool" then exp.filter (fun x => x != m.toolCallId)
  else exp

/-- The expected set after replaying a sequence of outbound entries. -/
def expAfter (exp : List String) (os : List ChatCompletionMessage) : List String :=
  os.foldl chatExpStep exp

/-- Every assistant text entry of the sequence occurs at a point where the
replayed expected set is empty. -/
def noTextWhilePending : List String → List ChatCompletionMessage → Bool
  | _, [] => true
  | exp, m :: rest =>
    (!(isAsstText m) || exp.isEmpty) && noTextWhilePending (chatExpStep exp m) rest

/- ---------------------------------------------------------------------
   AddSystemMessage (openai.go lines 879-895)
   --------------------------------------------------------------------- -/

/-- Does the haystack start with the needle? (strings.HasPrefix on char lists) -/
def charsStartWith : List Char → List Char → Bool
  | _, [] => true
  | [], _ :: _ => false
  | c :: cs, d :: ds => c == d && charsStartWith cs ds

/-- Does the haystack contain the needle as a contiguous substring? -/
def charsContain : List Char → List Char → Bool
  | [], needle => needle.isEmpty
  | c :: cs, needle => charsStartWith (c :: cs) needle || charsContain cs needle

/-- strings.Contains. -/
def strContains (s sub : String) : Bool := charsContain s.data sub.data

/-- AddSystemMessage: content containing "DEBUG:" is dropped; otherwise a
system entry with exactly that content is appended.  nil is returned in
both cases (modelled as the Option.none error). -/
def addSystemMessage (content : String) (hist : List Message) :
    List Message × Option String :=
  if strContains content "DEBUG:" then (hist, none)
  else (hist ++ [{ role := "system", content := content }], none)

/- ---------------------------------------------------------------------
   Helper lemmas
   --------------------------------------------------------------------- -/

theorem buildAborted_go (p : List String) (acc : List Message) :
    p.foldl (fun a id => a ++ [syntheticAborted id]) acc = acc ++ p.map syntheticAborted := by
  induction p generalizing acc with
  | nil => simp
  | cons x xs ih => simp [ih]

theorem buildAborted_eq (p : List String) : buildAborted p = p.map syntheticAborted := by
  simpa [buildAborted] using buildAborted_go p []

theorem filter_beq_nil (xs : List String) (x : String) (hx : x ∉ xs) :
    xs.filter (fun y => y == x) = [] := by
  induction xs with
  | nil => rfl
  | cons z zs ih =>
    have hz : (z == x) = false := by
      have : z ≠ x := fun he => hx (he ▸ List.mem_cons_self z zs)
      simpa using this
    have hx2 : x ∉ zs := fun hc => hx (List.mem_cons_of_mem z hc)
    simp [List.filter_cons, hz, ih hx2]

theorem filter_beq_length_one (p : List String) (id : String) (hnd : p.Nodup) (hm : id ∈ p) :
    (p.filter (fun x => x == id)).length = 1 := by
  induction p with
  | nil => cases hm
  | cons x xs ih =>
    rcases List.nodup_cons.mp hnd with ⟨hx, hxs⟩
    rcases List.mem_cons.mp hm with h | h
    · subst h
      simp [List.filter_cons, filter_beq_nil xs id hx]
    · have hxid : (x == id) = false := by
        have : x ≠ id := fun he => hx (he ▸ h)
        simpa using this
      simpa [List.filter_cons, hxid] using ih hxs h

theorem count_synth (p : List String) (id : String) :
    ((p.map syntheticAborted).filter
      (fun m => m.role == "tool" && m.toolCallId == id && m.content == cancelledContent)).length
    = (p.filter (fun x => x == id)).length := by
  induction p with
  | nil => rfl
  | cons x xs ih =>
    simp only [List.map_cons, List.filter_cons]
    cases hx : (x == id) <;> simp [syntheticAborted, hx, ih]

theorem smRunFrom_append (st : SMState) (l1 l2 : List Delta) :
    smRunFrom st (l1 ++ l2) = smRunFrom (smRunFrom st l1) l2 := by
  simp [smRunFrom, List.foldl_append]

theorem smStep_processing (st : SMState) (d : Delta) :
    (smStep st d).processing = (st.processing || !d.toolCalls.isEmpty) := by
  unfold smStep
  cases hc : (d.finishReason == "tool_calls") <;> simp [hc]

theorem msgEvents_append (a b : List AgentAction) :
    msgEvents (a ++ b) = msgEvents a ++ msgEvents b := by
  simp [msgEvents, List.filter_append]

theorem emitCalls_cons (p : String × FunctionCall) (t : List (String × FunctionCall)) :
    emitCalls (p :: t)
      = AgentAction.register p.1
          :: AgentAction.emit (ResponseItem.functionCall p.2.name p.2.arguments p.1)
          :: emitCalls t := rfl

theorem msgEvents_emitCalls (ord : List (String × FunctionCall)) :
    msgEvents (emitCalls ord) = [] := by
  induction ord with
  | nil => rfl
  | cons p t ih => simp [emitCalls_cons, msgEvents, List.filter_cons, isMsgEmit] at ih ⊢; exact ih

theorem smStep_msgEvents (st : SMState) (d : Delta) (h : st.processing = true) :
    msgEvents (smStep st d).trace = msgEvents st.trace := by
  unfold smStep
  cases hc : (d.finishReason == "tool_calls") <;>
    simp [h, hc, msgEvents_append, msgEvents_emitCalls]

theorem msgEvents_runFrom (ds : List Delta) (st : SMState) (h : st.processing = true) :
    msgEvents (smRunFrom st ds).trace = msgEvents st.trace := by
  induction ds generalizing st with
  | nil => rfl
  | cons d rest ih =>
    have h2 : (smStep st d).processing = true := by rw [smStep_processing, h]; rfl
    calc msgEvents (smRunFrom st (d :: rest)).trace
        = msgEvents (smRunFrom (smStep st d) rest).trace := rfl
      _ = msgEvents (smStep st d).trace := ih _ h2
      _ = msgEvents st.trace := smStep_msgEvents st d h

theorem foldl_append_shift (l : List String) (s : String) :
    l.foldl (fun a b => a ++ b) s = s ++ l.foldl (fun a b => a ++ b) "" := by
  induction l generalizing s with
  | nil => simp [String.append_empty]
  | cons x xs ih =>
    simp only [List.foldl_cons]
    rw [ih (s ++ x), ih ("" ++ x), String.empty_append, String.append_assoc]

theorem concatStrings_cons (f : String) (l : List String) :
    concatStrings (f :: l) = f ++ concatStrings l := by
  simp only [concatStrings, List.foldl_cons]
  rw [foldl_append_shift, String.empty_append]

theorem concatStrings_singleton (f : String) : concatStrings [f] = f := by
  rw [concatStrings_cons]
  simp [concatStrings, String.append_empty]

theorem smStep_text (st : SMState) (f : String) (hp : st.processing = false) (hf : f ≠ "") :
    smStep st ({ content := f } : Delta)
      = { st with
          currentContent := st.currentContent ++ f,
          trace := st.trace ++
            [AgentAction.emit (ResponseItem.message st.currentRole (st.currentContent ++ f))] } := by
  have hne : (f != "") = true := by simpa using hf
  unfold smStep smStepAcc
  simp [hp, hne, show (("" : String) == "tool_calls") = false by decide]

theorem textEvents_getElem (fs : List String) (role c : String) (k : Nat)
    (hk : k < fs.length) :
    (textEvents role c fs)[k]?
      = some (AgentAction.emit (ResponseItem.message role
          (c ++ concatStrings (fs.take (k + 1))))) := by
  induction fs generalizing c k with
  | nil => simp at hk
  | cons f rest ih =>
    cases k with
    | zero =>
      simp [textEvents, List.take_succ_cons, concatStrings_singleton]
    | succ k =>
      have hk2 : k < rest.length := by simpa using hk
      simp only [textEvents, List.getElem?_cons_succ]
      rw [ih (c ++ f) k hk2, List.take_succ_cons, concatStrings_cons, String.append_assoc]

theorem textEvents_length (fs : List String) (role c : String) :
    (textEvents role c fs).length = fs.length := by
  induction fs generalizing c with
  | nil => rfl
  | cons f rest ih => simp [textEvents, ih]

theorem smRunFrom_textEvents (fs : List String) (st : SMState) (hp : st.processing = false)
    (hf : ∀ f ∈ fs, f ≠ "") :
    (smRunFrom st (fs.map fun f => ({ content := f } : Delta))).trace
      = st.trace ++ textEvents st.currentRole st.currentContent fs := by
  induction fs generalizing st with
  | nil => simp [smRunFrom, textEvents]
  | cons f rest ih =>
    rw [List.map_cons]
    have hstep := smStep_text st f hp (hf f (List.mem_cons_self f rest))
    calc (smRunFrom st (({ content := f } : Delta)
            :: rest.map fun f => ({ content := f } : Delta))).trace
        = (smRunFrom (smStep st { content := f })
            (rest.map fun f => ({ content := f } : Delta))).trace := rfl
      _ = _ := by
          rw [hstep, ih _ (by simpa using hp) (fun g hg => hf g (List.mem_cons_of_mem f hg))]
          simp [textEvents]

theorem sfrStep_text (st : SFRState) (f : String) (hf : f ≠ "") :
    sfrStep st ({ content := f } : Delta)
      = { st with
          currentContent := st.currentContent ++ f,
          trace := st.trace ++
            [AgentAction.emit (ResponseItem.message st.currentRole (st.currentContent ++ f))] } := by
  have hne : (f != "") = true := by simpa using hf
  unfold sfrStep
  simp [hne, show (("" : String) == "tool_calls") = false by decide]

theorem fcIds_append (a b : List AgentAction) : fcIds (a ++ b) = fcIds a ++ fcIds b := by
  simp [fcIds, List.filterMap_append]

theorem fcIds_emitCalls (ord : List (String × FunctionCall)) :
    fcIds (emitCalls ord) = ord.map Prod.fst := by
  induction ord with
  | nil => rfl
  | cons p t ih => simp [emitCalls_cons, fcIds, List.filterMap_cons, fcId] at ih ⊢; exact ih

theorem sfrRunFrom_textEvents (fs : List String) (st : SFRState)
    (hf : ∀ f ∈ fs, f ≠ "") :
    ((fs.map fun f => ({ content := f } : Delta)).foldl sfrStep st).trace
      = st.trace ++ textEvents st.currentRole st.currentContent fs := by
  induction fs generalizing st with
  | nil => simp [textEvents]
  | cons f rest ih =>
    rw [List.map_cons]
    have hstep := sfrStep_text st f (hf f (List.mem_cons_self f rest))
    calc ((({ content := f } : Delta)
            :: rest.map fun f => ({ content := f } : Delta)).foldl sfrStep st).trace
        = ((rest.map fun f => ({ content := f } : Delta)).foldl sfrStep
            (sfrStep st { content := f })).trace := rfl
      _ = _ := by
          rw [hstep, ih _ (fun g hg => hf g (List.mem_cons_of_mem f hg))]
          simp [textEvents]

theorem smStep_no_marker (st : SMState) (d : Delta) (hp : st.processing = false)
    (hfin : (d.finishReason == "tool_calls") = false) (htc : d.toolCalls = []) :
    (smStep st d).endedToolCall = st.endedToolCall ∧
    (smStep st d).processing = false ∧
    (smStep st d).acc = st.acc ∧
    (smStep st d).currentContent = st.currentContent ++ d.content ∧
    (smStep st d).currentRole = (if d.role == "" then st.currentRole else d.role) := by
  unfold smStep smStepAcc
  cases hcc : (d.content != "") <;> simp_all [String.append_empty]

theorem smRunFrom_no_marker (deltas : List Delta) (st : SMState) (hp : st.processing = false)
    (h : ∀ d ∈ deltas, (d.finishReason == "tool_calls") = false ∧ d.toolCalls = []) :
    (smRunFrom st deltas).endedToolCall = st.endedToolCall ∧
    (smRunFrom st deltas).processing = false ∧
    (smRunFrom st deltas).currentContent
      = deltas.foldl (fun s d => s ++ d.content) st.currentContent ∧
    (smRunFrom st deltas).currentRole
      = deltas.foldl (fun r d => if d.role == "" then r else d.role) st.currentRole := by
  induction deltas generalizing st with
  | nil => exact ⟨rfl, hp, rfl, rfl⟩
  | cons d rest ih =>
    obtain ⟨hfin, htc⟩ := h d (List.mem_cons_self d rest)
    obtain ⟨h1, h2, _h3, h4, h5⟩ := smStep_no_marker st d hp hfin htc
    obtain ⟨g1, g2, g3, g4⟩ := ih (smStep st d) h2 (fun x hx => h x (List.mem_cons_of_mem d hx))
    refine ⟨?_, g2, ?_, ?_⟩
    · calc (smRunFrom st (d :: rest)).endedToolCall
          = (smRunFrom (smStep st d) rest).endedToolCall := rfl
        _ = (smStep st d).endedToolCall := g1
        _ = st.endedToolCall := h1
    · calc (smRunFrom st (d :: rest)).currentContent
          = (smRunFrom (smStep st d) rest).currentContent := rfl
        _ = rest.foldl (fun s d => s ++ d.content) (smStep st d).currentContent := g3
        _ = rest.foldl (fun s d => s ++ d.content) (st.currentContent ++ d.content) := by rw [h4]
        _ = (d :: rest).foldl (fun s d => s ++ d.content) st.currentContent := rfl
    · calc (smRunFrom st (d :: rest)).currentRole
          = (smRunFrom (smStep st d) rest).currentRole := rfl
        _ = rest.foldl (fun r d => if d.role == "" then r else d.role)
              (smStep st d).currentRole := g4
        _ = rest.foldl (fun r d => if d.role == "" then r else d.role)
              (if d.role == "" then st.currentRole else d.role) := by rw [h5]
        _ = (d :: rest).foldl (fun r d => if d.role == "" then r else d.role)
              st.currentRole := rfl

theorem smStep_ended_no_finish (st : SMState) (d : Delta)
    (hfin : (d.finishReason == "tool_calls") = false) :
    (smStep st d).endedToolCall = (st.endedToolCall || !d.toolCalls.isEmpty) := by
  unfold smStep
  cases he : d.toolCalls.isEmpty <;> simp_all

theorem smRunFrom_ended (deltas : List Delta) (st : SMState)
    (h : ∀ d ∈ deltas, (d.finishReason == "tool_calls") = false) :
    (smRunFrom st deltas).endedToolCall
      = (st.endedToolCall || deltas.any fun d => !d.toolCalls.isEmpty) := by
  induction deltas generalizing st with
  | nil => simp [smRunFrom]
  | cons d rest ih =>
    have hfin := h d (List.mem_cons_self d rest)
    calc (smRunFrom st (d :: rest)).endedToolCall
        = (smRunFrom (smStep st d) rest).endedToolCall := rfl
      _ = ((smStep st d).endedToolCall || rest.any fun x => !x.toolCalls.isEmpty) :=
          ih _ (fun x hx => h x (List.mem_cons_of_mem d hx))
      _ = _ := by
          rw [smStep_ended_no_finish st d hfin]
          simp [List.any_cons, Bool.or_assoc]

theorem smFinish_snd (hist : List Message) (st : SMState) :
    (smFinish hist st).2 = st.endedToolCall := by
  unfold smFinish
  cases he : st.endedToolCall
  · simp only [he, Bool.false_eq_true, if_false]
    split <;> rfl
  · simp only [he, if_true]
    split <;> rfl

theorem smFinish_fst_ended (hist : List Message) (st : SMState)
    (he : st.endedToolCall = true) :
    (smFinish hist st).1 = hist ∨
    ∃ tcs, tcs ≠ [] ∧ (smFinish hist st).1
      = hist ++ [{ role := "assistant", content := "", toolCalls := tcs }] := by
  unfold smFinish
  simp only [he, if_true]
  split
  · rename_i htcs
    right
    refine ⟨_, ?_, rfl⟩
    intro hnil
    rw [hnil] at htcs
    simp at htcs
  · left
    rfl

theorem expInsert_mem {e : List String} {id : String} (x : String) (h : id ∈ e) :
    id ∈ expInsert e x := by
  unfold expInsert
  split
  · exact h
  · exact List.mem_append_left _ h

theorem expInsert_self (e : List String) (x : String) : x ∈ expInsert e x := by
  unfold expInsert
  split
  · assumption
  · exact List.mem_append_right _ (List.mem_cons_self x [])

theorem foldlInsert_mem {id : String} (l : List ToolCall) (e : List String) (h : id ∈ e) :
    id ∈ l.foldl (fun e tc => expInsert e tc.id) e := by
  induction l generalizing e with
  | nil => exact h
  | cons tc tl ih => exact ih _ (expInsert_mem _ h)

theorem foldlInsert_mem_of_call {tc : ToolCall} (l : List ToolCall) (e : List String)
    (h : tc ∈ l) :
    tc.id ∈ l.foldl (fun e t => expInsert e t.id) e := by
  induction l generalizing e with
  | nil => cases h
  | cons hd tl ih =>
    rcases List.mem_cons.mp h with he | hm
    · subst he
      exact foldlInsert_mem tl _ (expInsert_self e tc.id)
    · exact ih _ hm

theorem chatExpStep_mem {exp : List String} {id : String} (m : ChatCompletionMessage)
    (h : id ∈ exp) (hm : (m.role == "tool" && m.toolCallId == id) = false) :
    id ∈ chatExpStep exp m := by
  unfold chatExpStep
  split
  · exact foldlInsert_mem _ _ h
  · split
    · rename_i htool
      apply List.mem_filter.mpr
      refine ⟨h, ?_⟩
      rw [htool] at hm
      simp only [Bool.true_and] at hm
      have hne : m.toolCallId ≠ id := by simpa using hm
      simpa using Ne.symm hne
    · exact h

theorem expAfter_mem {id : String} (seg : List ChatCompletionMessage) (exp : List String)
    (h : id ∈ exp)
    (hs : ∀ m ∈ seg, (m.role == "tool" && m.toolCallId == id) = false) :
    id ∈ expAfter exp seg := by
  induction seg generalizing exp with
  | nil => exact h
  | cons m rest ih =>
    exact ih _ (chatExpStep_mem m h (hs m (List.mem_cons_self m rest)))
      (fun x hx => hs x (List.mem_cons_of_mem m hx))

theorem noTextWhilePending_spec (os : List ChatCompletionMessage) (exp : List String)
    (j : Nat) (b : ChatCompletionMessage) (h : noTextWhilePending exp os = true)
    (hj : os[j]? = some b) (hb : isAsstText b = true) :
    expAfter exp (os.take j) = [] := by
  induction os generalizing exp j with
  | nil => simp at hj
  | cons m rest ih =>
    rw [noTextWhilePending, Bool.and_eq_true] at h
    obtain ⟨hcond, hrest⟩ := h
    cases j with
    | zero =>
      have hmb : m = b := by simpa using hj
      subst hmb
      rw [hb] at hcond
      simp only [Bool.not_true, Bool.false_or] at hcond
      simpa [expAfter] using hcond
    | succ k =>
      rw [List.getElem?_cons_succ] at hj
      have := ih (chatExpStep exp m) k hrest hj
      simpa [List.take_succ_cons, expAfter] using this

theorem filter_noText (ms : List Message) : ∀ (exp : List String),
    noTextWhilePending exp (sendFunctionResultFilterGo exp ms) = true := by
  induction ms with
  | nil => intro exp; rfl
  | cons m rest ih =>
    intro exp
    rw [sendFunctionResultFilterGo]
    cases hA : (m.role == "assistant")
    · cases hT : (m.role == "tool")
      · simp only [hA, hT, Bool.false_eq_true, if_false]
        rw [noTextWhilePending, Bool.and_eq_true]
        refine ⟨by simp [isAsstText, hA], ?_⟩
        have hstep : chatExpStep exp
            { role := m.role, content := m.content, toolCalls := [], toolCallId := "" } = exp := by
          unfold chatExpStep
          simp [isAsstCalls, hA, hT]
        rw [hstep]
        exact ih exp
      · simp only [hA, hT, Bool.false_eq_true, if_false, if_true]
        rw [noTextWhilePending, Bool.and_eq_true]
        refine ⟨by simp [isAsstText, hA], ?_⟩
        have hstep : chatExpStep exp
            { role := m.role, content := m.content, toolCalls := [],
              toolCallId := m.toolCallId }
            = exp.filter (fun x => x != m.toolCallId) := by
          unfold chatExpStep
          simp [isAsstCalls, hA, hT]
        rw [hstep]
        exact ih _
    · have hrole : m.role = "assistant" := by simpa using hA
      cases hT : m.toolCalls.isEmpty
      · simp only [hA, hT, Bool.not_false, if_true]
        rw [noTextWhilePending, Bool.and_eq_true]
        refine ⟨by simp [isAsstText, hT], ?_⟩
        have hstep : chatExpStep exp
            { role := m.role, content := "", toolCalls := m.toolCalls, toolCallId := "" }
            = m.toolCalls.foldl (fun e tc => expInsert e tc.id) exp := by
          unfold chatExpStep
          simp [isAsstCalls, hA, hT]
        rw [hstep]
        exact ih _
      · cases hE : exp.isEmpty
        · simp only [hA, hT, hE, Bool.not_true, Bool.false_eq_true, if_false, if_true,
            Bool.not_false]
          exact ih exp
        · simp only [hA, hT, hE, Bool.not_true, Bool.false_eq_true, if_false, if_true]
          rw [noTextWhilePending, Bool.and_eq_true]
          refine ⟨by simp [hE], ?_⟩
          have hstep : chatExpStep exp
              { role := m.role, content := m.content, toolCalls := [], toolCallId := "" }
              = exp := by
            unfold chatExpStep
            simp [isAsstCalls, hrole]
          rw [hstep]
          exact ih exp

theorem take_succ_eq {α : Type} {l : List α} {i : Nat} {a : α} (h : l[i]? = some a) :
    l.take (i + 1) = l.take i ++ [a] := by
  induction l generalizing i with
  | nil => simp at h
  | cons x xs ih =>
    cases i with
    | zero =>
      have : x = a := by simpa using h
      subst this
      simp
    | succ k =>
      rw [List.getElem?_cons_succ] at h
      simp [List.take_succ_cons, ih h]

/- ---------------------------------------------------------------------
   Claim theorems
   --------------------------------------------------------------------- -/

/-- C1 counterexample: the claim quantifies over every Message Log state and
covers the history conversion step of SendMessage, but that step applies no
filtering: on a log holding an assistant text entry interleaved between a
tool-call-issuing assistant entry and its tool result, the outbound sequence
SendMessage builds contains the forbidden interleaving. -/
theorem C1_counterexample :
    projViolation (sendMessageProject
      [ { role := "assistant", content := "",
          toolCalls := [ToolCall.mk "c1" "function" { name := "shell", arguments := "x" }] },
        { role := "assistant", content := "interim" },
        { role := "tool", content := "res", toolCallId := "c1" },
        { role := "user", content := "hi" } ]) = true := by decide

/-- C1 amended: for every Message Log state, the outbound sequence built by
the filtering step of SendFunctionResult never contains an assistant text
entry positioned after a tool-call-issuing assistant entry and before all of
that entry's matching tool-result entries are present.  (The history
conversion step of SendMessage performs no such filtering; see the
counterexample.) -/
theorem C1_filter_never_interleaves (ms : List Message) :
    projViolation (sendFunctionResultFilter ms) = false := by
  cases hval : projViolation (sendFunctionResultFilter ms) with
  | false => rfl
  | true =>
    exfalso
    set os := sendFunctionResultFilter ms with hos
    unfold projViolation at hval
    obtain ⟨i, _hi, hrow⟩ := List.any_eq_true.mp hval
    obtain ⟨j, _hj, hv⟩ := List.any_eq_true.mp hrow
    unfold violationAt at hv
    rw [Bool.and_eq_true, Bool.and_eq_true, Bool.and_eq_true] at hv
    obtain ⟨⟨⟨hlt, hA⟩, hB⟩, hAny⟩ := hv
    have hij : i < j := of_decide_eq_true hlt
    cases hoi : os[i]? with
    | none => rw [hoi] at hA; simp at hA
    | some a =>
      rw [hoi] at hA hAny
      simp only [Option.elim] at hA hAny
      cases hoj : os[j]? with
      | none => rw [hoj] at hB; simp at hB
      | some b =>
        rw [hoj] at hB
        simp only [Option.elim] at hB
        obtain ⟨tc, htc, hres⟩ := List.any_eq_true.mp hAny
        rw [Bool.not_eq_true'] at hres
        have hnt : noTextWhilePending [] os = true := filter_noText ms []
        have hempty : expAfter [] (os.take j) = [] :=
          noTextWhilePending_spec os [] j b hnt hoj hB
        have hseg : ∀ m ∈ (os.drop (i + 1)).take (j - (i + 1)),
            (m.role == "tool" && m.toolCallId == tc.id) = false := by
          intro m hm
          cases hcm : (m.role == "tool" && m.toolCallId == tc.id) with
          | false => rfl
          | true =>
            exfalso
            have hcontra : segHasResult ((os.drop (i + 1)).take (j - (i + 1))) tc.id = true :=
              List.any_eq_true.mpr ⟨m, hm, hcm⟩
            rw [hcontra] at hres
            simp at hres
        have hdecomp : os.take j = os.take (i + 1) ++ (os.drop (i + 1)).take (j - (i + 1)) := by
          have hsum : (i + 1) + (j - (i + 1)) = j := by omega
          calc os.take j = os.take ((i + 1) + (j - (i + 1))) := by rw [hsum]
            _ = os.take (i + 1) ++ (os.drop (i + 1)).take (j - (i + 1)) := List.take_add os _ _
        have hstep : os.take (i + 1) = os.take i ++ [a] := take_succ_eq hoi
        have hmemI : tc.id ∈ expAfter [] (os.take (i + 1)) := by
          rw [hstep]
          unfold expAfter
          rw [List.foldl_append]
          simp only [List.foldl_cons, List.foldl_nil]
          unfold chatExpStep
          simp only [hA, if_true]
          exact foldlInsert_mem_of_call a.toolCalls _ htc
        have hmemJ : tc.id ∈ expAfter [] (os.take j) := by
          rw [hdecomp]
          unfold expAfter
          rw [List.foldl_append]
          exact expAfter_mem _ _ hmemI hseg
        rw [hempty] at hmemJ
        exact absurd hmemJ (List.not_mem_nil _)

/-- C2: whenever SendMessage begins with pending ids c1..cn (distinct, as
they are keys of a Go map), the tracker is emptied, and the new Message Log
is the old one followed by exactly one synthetic cancelled tool-result entry
per pending id, all of them before the new user messages. -/
theorem C2_drain_synthetic_results (pending : List String) (hist msgs : List Message)
    (hnd : pending.Nodup) :
    (sendMessagePre pending hist msgs).2 = [] ∧
    (sendMessagePre pending hist msgs).1 = hist ++ pending.map syntheticAborted ++ msgs ∧
    ∀ id ∈ pending,
      ((pending.map syntheticAborted).filter
        (fun m => m.role == "tool" && m.toolCallId == id && m.content == cancelledContent)).length
        = 1 := by
  refine ⟨rfl, ?_, ?_⟩
  · unfold sendMessagePre
    rw [buildAborted_eq]
    cases hab : (pending.map syntheticAborted).isEmpty <;>
      cases hms : msgs.isEmpty <;>
        simp_all [addMessages, List.isEmpty_iff]
  · intro id hid
    rw [count_synth]
    exact filter_beq_length_one pending id hnd hid

/-- C2 witness: one pending id "c1" and one new user message. -/
theorem C2_drain_synthetic_results_witness :
    (sendMessagePre ["c1"] [] [{ role := "user", content := "hi" }]).2 = [] ∧
    (sendMessagePre ["c1"] [] [{ role := "user", content := "hi" }]).1
      = [] ++ ["c1"].map syntheticAborted ++ [{ role := "user", content := "hi" }] ∧
    ∀ id ∈ ["c1"],
      ((["c1"].map syntheticAborted).filter
        (fun m => m.role == "tool" && m.toolCallId == id && m.content == cancelledContent)).length
        = 1 :=
  C2_drain_synthetic_results ["c1"] [] [{ role := "user", content := "hi" }] (by decide)

/-- C3 counterexample: the emission loop ranges over the Go map
accumulatingToolCalls, whose iteration order is unspecified.  With two
accumulated ids seen in the order a, b, the execution that iterates the map
as b, a is admissible (ok = true) and hands the events to the sink in the
order b, a, which is not the first-seen order. -/
theorem C3_counterexample :
    ((smRun [ ({ toolCalls := [ToolCallChunk.mk "a" "fa" "x"] } : Delta),
              ({ toolCalls := [ToolCallChunk.mk "b" "fb" "y"] } : Delta),
              ({ finishReason := "tool_calls" } : Delta) ]
        [[("b", { name := "fb", arguments := "y" }),
          ("a", { name := "fa", arguments := "x" })]]).ok = true ∧
      fcIds (smRun [ ({ toolCalls := [ToolCallChunk.mk "a" "fa" "x"] } : Delta),
              ({ toolCalls := [ToolCallChunk.mk "b" "fb" "y"] } : Delta),
              ({ finishReason := "tool_calls" } : Delta) ]
        [[("b", { name := "fb", arguments := "y" }),
          ("a", { name := "fa", arguments := "x" })]]).trace = ["b", "a"] ∧
      (smRun [ ({ toolCalls := [ToolCallChunk.mk "a" "fa" "x"] } : Delta),
              ({ toolCalls := [ToolCallChunk.mk "b" "fb" "y"] } : Delta),
              ({ finishReason := "tool_calls" } : Delta) ]
        [[("b", { name := "fb", arguments := "y" }),
          ("a", { name := "fa", arguments := "x" })]]).acc.map Prod.fst = ["a", "b"] ∧
      (["b", "a"] : List String) ≠ ["a", "b"]) := by
  refine ⟨by decide, by decide, by decide, by decide⟩

/-- C3 amended: when a tool_calls finish marker is handled, the emission
loop hands to the sink exactly one function_call event per accumulated id,
in some permutation of the first-seen order (the order is whatever the map
iteration yields and is not guaranteed). -/
theorem C3_one_event_per_id (st : SMState) (d : Delta)
    (hfin : d.finishReason = "tool_calls") (hok : (smStep st d).ok = true) :
    ((fcIds (smStep st d).trace).drop (fcIds st.trace).length).Perm
      ((smStepAcc st d).map Prod.fst) := by
  have hbeq : (d.finishReason == "tool_calls") = true := by simp [hfin]
  unfold smStep at hok ⊢
  simp only [hbeq, if_true] at hok ⊢
  rw [Bool.and_eq_true] at hok
  obtain ⟨hsok, hperm⟩ := hok
  have hp : (st.ords.headD (smStepAcc st d)).Perm (smStepAcc st d) :=
    of_decide_eq_true hperm
  cases hc : (d.content != "" && !(st.processing || !d.toolCalls.isEmpty)) <;>
    simp only [hc, if_true, if_false, Bool.false_eq_true, ite_false, ite_true] <;>
    rw [fcIds_append, fcIds_emitCalls] <;>
    simp only [fcIds, List.filterMap_append, List.filterMap_cons, fcId, List.filterMap_nil,
      List.append_nil] <;>
    rw [List.drop_left] <;>
    exact hp.map Prod.fst

/-- C3 amended witness: one accumulated id "a", finish marker handled with
the identity iteration order. -/
theorem C3_one_event_per_id_witness :
    ((fcIds (smStep
        { acc := [("a", { name := "f", arguments := "x" })], currentContent := "",
          currentRole := "assistant", endedToolCall := true, processing := true,
          trace := [], ords := [[("a", { name := "f", arguments := "x" })]], ok := true }
        ({ finishReason := "tool_calls" } : Delta)).trace).drop
      (fcIds ([] : List AgentAction)).length).Perm
      ((smStepAcc
        { acc := [("a", { name := "f", arguments := "x" })], currentContent := "",
          currentRole := "assistant", endedToolCall := true, processing := true,
          trace := [], ords := [[("a", { name := "f", arguments := "x" })]], ok := true }
        ({ finishReason := "tool_calls" } : Delta)).map Prod.fst) :=
  C3_one_event_per_id
    { acc := [("a", { name := "f", arguments := "x" })], currentContent := "",
      currentRole := "assistant", endedToolCall := true, processing := true,
      trace := [], ords := [[("a", { name := "f", arguments := "x" })]], ok := true }
    { finishReason := "tool_calls" } rfl (by decide)

/-- C4 code-bug evaluation: a follow-up stream in SendFunctionResult that
finalizes a nested tool call delivers the function_call event for id "c9" to
the sink, yet the trace contains no pendingToolCalls registration at all, so
the delivery is not covered by any registration. -/
theorem C4_followup_unregistered_eval :
    fcIds (sfrRun []
      [ { toolCalls := [ToolCallChunk.mk "c9" "read_file" "y"] },
        { finishReason := "tool_calls" } ]).trace = ["c9"] ∧
    fcRegistered [] (sfrRun []
      [ { toolCalls := [ToolCallChunk.mk "c9" "read_file" "y"] },
        { finishReason := "tool_calls" } ]).trace = false := by decide

/-- C5: for a turn consuming text fragments f1..fn with no tool-call
fragment, the k-th message event handed to the handler (counting from 0, in
both the SendMessage loop and the SendFunctionResult follow-up loop) carries
the accumulated content f1 ++ ... ++ f(k+1), and there is exactly one such
event per fragment. -/
theorem C5_cumulative_text_deltas (fs : List String) (hist : List Message)
    (ords : List (List (String × FunctionCall))) (k : Nat)
    (hf : ∀ f ∈ fs, f ≠ "") (hk : k < fs.length) :
    (smRun (fs.map fun f => ({ content := f } : Delta)) ords).trace.length = fs.length ∧
    ((smRun (fs.map fun f => ({ content := f } : Delta)) ords).trace)[k]?
      = some (AgentAction.emit (ResponseItem.message "assistant"
          (concatStrings (fs.take (k + 1))))) ∧
    ((fs.map fun f => ({ content := f } : Delta)).foldl sfrStep (sfrInit hist)).trace.length
      = fs.length ∧
    (((fs.map fun f => ({ content := f } : Delta)).foldl sfrStep (sfrInit hist)).trace)[k]?
      = some (AgentAction.emit (ResponseItem.message "assistant"
          (concatStrings (fs.take (k + 1))))) := by
  have h1 : (smRun (fs.map fun f => ({ content := f } : Delta)) ords).trace
      = textEvents "assistant" "" fs := by
    simpa [smRun, smInit] using smRunFrom_textEvents fs (smInit ords) rfl hf
  have h2 : ((fs.map fun f => ({ content := f } : Delta)).foldl sfrStep (sfrInit hist)).trace
      = textEvents "assistant" "" fs := by
    simpa [sfrInit] using sfrRunFrom_textEvents fs (sfrInit hist) hf
  refine ⟨?_, ?_, ?_, ?_⟩
  · rw [h1, textEvents_length]
  · rw [h1, textEvents_getElem fs "assistant" "" k hk, String.empty_append]
  · rw [h2, textEvents_length]
  · rw [h2, textEvents_getElem fs "assistant" "" k hk, String.empty_append]

/-- C5 witness: two fragments "ab", "cd"; after the second fragment the
event carries "abcd". -/
theorem C5_cumulative_text_deltas_witness :
    (smRun (["ab", "cd"].map fun f => ({ content := f } : Delta)) []).trace.length = 2 ∧
    ((smRun (["ab", "cd"].map fun f => ({ content := f } : Delta)) []).trace)[1]?
      = some (AgentAction.emit (ResponseItem.message "assistant"
          (concatStrings (["ab", "cd"].take 2)))) ∧
    ((["ab", "cd"].map fun f => ({ content := f } : Delta)).foldl sfrStep (sfrInit [])).trace.length
      = 2 ∧
    (((["ab", "cd"].map fun f => ({ content := f } : Delta)).foldl sfrStep (sfrInit [])).trace)[1]?
      = some (AgentAction.emit (ResponseItem.message "assistant"
          (concatStrings (["ab", "cd"].take 2)))) :=
  C5_cumulative_text_deltas ["ab", "cd"] [] [] 1 (by decide) (by decide)

/-- C6: once a delta carrying tool-call data is processed in a SendMessage
turn, the deltas after it contribute no further message (TextDelta) events:
the message events of the whole turn equal those up to and including that
delta, whatever text fragments follow. -/
theorem C6_mode_lockin (deltas1 : List Delta) (d : Delta) (deltas2 : List Delta)
    (ords : List (List (String × FunctionCall))) (h : d.toolCalls ≠ []) :
    msgEvents ((smRun (deltas1 ++ d :: deltas2) ords).trace)
      = msgEvents ((smRun (deltas1 ++ [d]) ords).trace) := by
  have hemp : d.toolCalls.isEmpty = false := by
    cases hc : d.toolCalls with
    | nil => exact absurd hc h
    | cons x xs => rfl
  have hd : (smStep (smRunFrom (smInit ords) deltas1) d).processing = true := by
    rw [smStep_processing, hemp]
    simp
  rw [smRun, smRun, smRunFrom_append, smRunFrom_append]
  calc msgEvents ((smRunFrom (smRunFrom (smInit ords) deltas1) (d :: deltas2)).trace)
      = msgEvents ((smRunFrom (smStep (smRunFrom (smInit ords) deltas1) d) deltas2).trace) := rfl
    _ = msgEvents ((smStep (smRunFrom (smInit ords) deltas1) d).trace) :=
        msgEvents_runFrom _ _ hd
    _ = msgEvents ((smRunFrom (smRunFrom (smInit ords) deltas1) [d]).trace) := rfl

/-- C6 witness: a text fragment, then a tool-call fragment, then another
text fragment; the trailing fragment emits nothing. -/
theorem C6_mode_lockin_witness :
    msgEvents ((smRun ([({ content := "a" } : Delta)]
        ++ ({ toolCalls := [ToolCallChunk.mk "i" "f" "g"] } : Delta)
          :: [({ content := "b" } : Delta)]) []).trace)
      = msgEvents ((smRun ([({ content := "a" } : Delta)]
          ++ [({ toolCalls := [ToolCallChunk.mk "i" "f" "g"] } : Delta)]) []).trace) :=
  C6_mode_lockin [{ content := "a" }] { toolCalls := [ToolCallChunk.mk "i" "f" "g"] }
    [{ content := "b" }] [] (by decide)

/-- C7 counterexample: a stream delivering one text fragment and reaching
EOF with no terminal finish marker is not surfaced as an error: SendMessage
commits the accumulated text as a normal assistant entry and returns
successfully. -/
theorem C7_counterexample :
    hasTerminalMarker [{ content := "hi" }] = false ∧
    sendMessageRun [] [{ content := "hi" }] StreamEnd.eof []
      = ([{ role := "assistant", content := "hi" }], Except.ok false) := by
  exact ⟨rfl, rfl⟩

/-- C7 amended: a stream that reaches EOF without having delivered any
terminal finish marker (no stop and no tool_calls finish reason; tool-call
fragments and other finish reasons such as length are allowed) is finalized
normally rather than surfaced as an error: SendMessage returns success,
reporting exactly whether tool-call data was seen; a stream with no
tool-call fragments commits its accumulated text (when non-empty) as an
assistant entry, and a stream with tool-call fragments commits at most one
assistant entry carrying the accumulated tool calls. -/
theorem C7_eof_finalizes_normally (hist : List Message) (deltas : List Delta)
    (ords : List (List (String × FunctionCall)))
    (h : hasTerminalMarker deltas = false) :
    (sendMessageRun hist deltas StreamEnd.eof ords).2
      = Except.ok (deltas.any fun d => !d.toolCalls.isEmpty) ∧
    ((deltas.any fun d => !d.toolCalls.isEmpty) = false →
      (sendMessageRun hist deltas StreamEnd.eof ords).1
        = if textConcat deltas == "" then hist
          else hist ++ [{ role := textRole deltas, content := textConcat deltas }]) ∧
    ((deltas.any fun d => !d.toolCalls.isEmpty) = true →
      (sendMessageRun hist deltas StreamEnd.eof ords).1 = hist ∨
      ∃ tcs, tcs ≠ [] ∧ (sendMessageRun hist deltas StreamEnd.eof ords).1
        = hist ++ [{ role := "assistant", content := "", toolCalls := tcs }]) := by
  have hterm : ∀ d ∈ deltas, (d.finishReason == "tool_calls") = false := by
    intro d hd
    cases hc : (d.finishReason == "tool_calls") with
    | false => rfl
    | true =>
      exfalso
      have hmark : hasTerminalMarker deltas = true :=
        List.any_eq_true.mpr ⟨d, hd, by simp [hc]⟩
      rw [h] at hmark
      simp at hmark
  have hended : (smRun deltas ords).endedToolCall
      = (deltas.any fun d => !d.toolCalls.isEmpty) := by
    simpa [smRun, smInit] using smRunFrom_ended deltas (smInit ords) hterm
  refine ⟨?_, ?_, ?_⟩
  · have heq : (sendMessageRun hist deltas StreamEnd.eof ords).2
        = Except.ok (smFinish hist (smRun deltas ords)).2 := rfl
    rw [heq, smFinish_snd, hended]
  · intro htc0
    have htc : ∀ d ∈ deltas, d.toolCalls = [] := by
      intro d hd
      cases hct : d.toolCalls with
      | nil => rfl
      | cons x xs =>
        exfalso
        have hany : (deltas.any fun d => !d.toolCalls.isEmpty) = true :=
          List.any_eq_true.mpr ⟨d, hd, by rw [hct]; rfl⟩
        rw [htc0] at hany
        simp at hany
    obtain ⟨h1, _h2, h3, h4⟩ := smRunFrom_no_marker deltas (smInit ords) rfl
      (fun d hd => ⟨hterm d hd, htc d hd⟩)
    have hc : (smRun deltas ords).currentContent = textConcat deltas := h3
    have hr : (smRun deltas ords).currentRole = textRole deltas := h4
    have he : (smRun deltas ords).endedToolCall = false := h1
    unfold sendMessageRun smFinish
    dsimp only
    rw [he, hc, hr]
    by_cases hcb : textConcat deltas = "" <;> simp [hcb]
  · intro htc1
    have he : (smRun deltas ords).endedToolCall = true := by rw [hended, htc1]
    have heq : (sendMessageRun hist deltas StreamEnd.eof ords).1
        = (smFinish hist (smRun deltas ords)).1 := rfl
    rw [heq]
    exact smFinish_fst_ended hist (smRun deltas ords) he

/-- C7 amended witness: one text fragment "hi", EOF with no finish marker. -/
theorem C7_eof_finalizes_normally_witness :
    (sendMessageRun [] [({ content := "hi" } : Delta)] StreamEnd.eof []).2
      = Except.ok ([({ content := "hi" } : Delta)].any fun d => !d.toolCalls.isEmpty) ∧
    (([({ content := "hi" } : Delta)].any fun d => !d.toolCalls.isEmpty) = false →
      (sendMessageRun [] [({ content := "hi" } : Delta)] StreamEnd.eof []).1
        = if textConcat [({ content := "hi" } : Delta)] == "" then ([] : List Message)
          else [] ++ [{ role := textRole [({ content := "hi" } : Delta)],
                        content := textConcat [({ content := "hi" } : Delta)] }]) ∧
    (([({ content := "hi" } : Delta)].any fun d => !d.toolCalls.isEmpty) = true →
      (sendMessageRun [] [({ content := "hi" } : Delta)] StreamEnd.eof []).1 = [] ∨
      ∃ tcs, tcs ≠ [] ∧
        (sendMessageRun [] [({ content := "hi" } : Delta)] StreamEnd.eof []).1
          = [] ++ [{ role := "assistant", content := "", toolCalls := tcs }]) :=
  C7_eof_finalizes_normally [] [{ content := "hi" }] [] (by decide)

/-- C8 code-bug evaluation: a follow-up stream that ends in a new tool-call
request (id "c2", finalized by the tool_calls marker) still gets the
followup_complete event emitted after the function_call event, because
currentFunctionCall is reset to nil when the marker is handled. -/
theorem C8_followup_complete_after_toolcall_eval :
    (sfrRun [] [ { toolCalls := [ToolCallChunk.mk "c2" "shell" "x"] },
                 { finishReason := "tool_calls" } ]).trace
      = [AgentAction.emit (ResponseItem.functionCall "shell" "x" "c2"),
         AgentAction.emit ResponseItem.followupComplete] ∧
    (sfrRun [] [ { toolCalls := [ToolCallChunk.mk "c2" "shell" "x"] },
                 { finishReason := "tool_calls" } ]).history
      = [{ role := "assistant", content := "",
           toolCalls := [ToolCall.mk "c2" "function" { name := "shell", arguments := "x" }] }] := by
  exact ⟨rfl, rfl⟩

/-- C9: if the stream is cancelled or fails with a transport error mid-turn,
SendMessage returns the receive error and commits no assistant entry: the
Message Log is exactly the one committed by the pre-stream phase (the
reconciliation and user-message appends), whatever deltas were received. -/
theorem C9_stream_error_commits_nothing (pending : List String) (hist msgs : List Message)
    (deltas : List Delta) (ords : List (List (String × FunctionCall))) :
    sendMessageRun (sendMessagePre pending hist msgs).1 deltas StreamEnd.fail ords
      = ((sendMessagePre pending hist msgs).1, Except.error "error receiving from stream") := rfl

/-- C10: AddSystemMessage drops content containing "DEBUG:" (history
unchanged, nil returned) and otherwise appends a system entry with exactly
that content (nil returned). -/
theorem C10_addSystemMessage_spec (content : String) (hist : List Message) :
    (strContains content "DEBUG:" = true → addSystemMessage content hist = (hist, none)) ∧
    (strContains content "DEBUG:" = false →
      addSystemMessage content hist
        = (hist ++ [{ role := "system", content := content }], none)) := by
  constructor <;> intro h <;> simp [addSystemMessage, h]

/-- C10 witness: one content containing "DEBUG:" and one without. -/
theorem C10_addSystemMessage_spec_witness :
    addSystemMessage "x DEBUG: y" [] = ([], none) ∧
    addSystemMessage "hello" [] = ([{ role := "system", content := "hello" }], none) :=
  ⟨(C10_addSystemMessage_spec "x DEBUG: y" []).1 (by decide),
   (C10_addSystemMessage_spec "hello" []).2 (by decide)⟩

end CodexAgent
